import Mathlib

/-!
Shallow embedding of the fake genealogy-tree generator (`fake_tree.py`) and
proofs about its randomness primitives, media pool, family-year computation
and sibling loop.

Randomness is made explicit: every call to `random.randint(lo, hi)` is
modelled by `randint lo hi u` where `u : ℕ` is an arbitrary outcome of the
underlying random source (every value of the closed range is attained for a
suitable `u`, and no other value is ever produced); a call to
`random.random()` is modelled by a rational outcome `u` with `0 ≤ u < 1`.
-/

namespace FakeTree

/-- Class constant `MIN_AGE` of `FakeTree`. -/
def MIN_AGE : ℤ := 55

/-- Class constant `MAX_AGE` of `FakeTree`. -/
def MAX_AGE : ℤ := 90

/-- Class constant `N_GEN` of `FakeTree` (default generation bound). -/
def N_GEN : ℕ := 6

/-- Value drawn by `random.randint(lo, hi)` on a non-inverted range, for
outcome `u` of the random source. -/
def randintT (lo hi : ℤ) (u : ℕ) : ℤ := lo + (u : ℤ) % (hi - lo + 1)

/-- Embedding of `random.randint(lo, hi)`: `none` models the `ValueError`
Python raises when the range is inverted. -/
def randint (lo hi : ℤ) (u : ℕ) : Option ℤ :=
  if lo ≤ hi then some (randintT lo hi u) else none

/-- Embedding of `FakeTree.random_bool`: `random.random() <= probability`,
the float draw modelled as a rational outcome `u ∈ [0, 1)`. -/
def random_bool (u probability : ℚ) : Bool := decide (u ≤ probability)

/-- The probability `1 - n_gen / self.N_GEN` computed inside
`FakeTree.random_has_parents`. -/
def has_parents_prob (N n_gen : ℕ) : ℚ := 1 - (n_gen : ℚ) / (N : ℚ)

/-- Embedding of `FakeTree.random_has_parents`. -/
def random_has_parents (N : ℕ) (u : ℚ) (n_gen : ℕ) : Bool :=
  random_bool u (has_parents_prob N n_gen)

/-- Embedding of `FakeTree.random_age`:
`random.randint(min_age or self.MIN_AGE, self.MAX_AGE)`.  Python's `or`
replaces the argument by `MIN_AGE` exactly when it equals `0`. -/
def random_age (min_age : ℤ) (u : ℕ) : Option ℤ :=
  randint (if min_age = 0 then MIN_AGE else min_age) MAX_AGE u

/-- Reachability of a recursive call `add_family(_, _, n_gen)` inside
`build()`: depth `0` is the root call, and depth `n + 1` is reachable when
depth `n` is and some outcome of `random.random()` makes
`random_has_parents(n)` succeed there. -/
def depthReachable (N : ℕ) : ℕ → Prop
  | 0 => True
  | n + 1 => depthReachable N n ∧
      ∃ u : ℚ, 0 ≤ u ∧ u < 1 ∧ random_has_parents N u n = true

/-- Matching condition of the `for candidate_image in self.images` loop in
`FakeTree.add_image`: the folder name must occur in the candidate path, and
so must `"color"` (when `color` is true) or `"grayscale"` (otherwise). -/
def imageMatches (folder : String) (color : Bool) (img : String) : Bool :=
  decide (folder.toList <:+: img.toList) &&
    decide ((if color then "color" else "grayscale").toList <:+: img.toList)

/-- State touched by `FakeTree.add_image`: the available image pool
`self.images` (listed in iteration order of the Python set) and the paths of
the `Media` records added to the store so far. -/
structure MediaState where
  images : List String
  mediaPaths : List String
  deriving DecidableEq, Repr

/-- Embedding of `FakeTree.add_image`: find the first matching pool image;
if none matches, return unchanged (the early `return`); otherwise remove the
image from the pool (`self.images - {image}`) and add a `Media` record
carrying its path. -/
def add_image (folder : String) (color : Bool) (s : MediaState) : MediaState :=
  match s.images.find? (imageMatches folder color) with
  | none => s
  | some image =>
      { images := s.images.filter (fun c => !(c == image)),
        mediaPaths := s.mediaPaths ++ [image] }

/-- A run of `add_image` requests (every media attachment in the generator —
faces, family pictures, wedding pictures — goes through `add_image`). -/
def runImages (reqs : List (String × Bool)) (s : MediaState) : MediaState :=
  reqs.foldl (fun t r => add_image r.1 r.2 t) s

/-- Invariant of the media state: no duplicate `Media` paths, and no stored
path is still available in the pool. -/
def MediaInv (s : MediaState) : Prop :=
  s.mediaPaths.Nodup ∧ ∀ p ∈ s.mediaPaths, p ∉ s.images

/-- The year data computed for one family by `FakeTree.add_family`. -/
structure FamilyYears where
  fatherBirthYear : ℤ
  motherBirthYear : ℤ
  marriageYear : ℤ
  fatherDeathYear : ℤ
  motherDeathYear : ℤ
  deriving DecidableEq, Repr

/-- Embedding of the year computations of `FakeTree.add_family` for the
anchor person born in `birth_year`: parents' birth years are
`randint(birth_year - 40, birth_year - 20)`, the marriage year is
`randint(max(father_birth_year, mother_birth_year) + 18, birth_year - 1)`,
and each parent's death year adds
`random_age(min_age=marriage_year - parent_birth_year + 1)` to their birth
year.  Each draw takes its own outcome parameter. -/
def familyYears (birth_year : ℤ) (ufb umb um ufa uma : ℕ) :
    Option FamilyYears :=
  (randint (birth_year - 40) (birth_year - 20) ufb).bind fun father_birth_year =>
  (randint (birth_year - 40) (birth_year - 20) umb).bind fun mother_birth_year =>
  (randint (max father_birth_year mother_birth_year + 18)
      (birth_year - 1) um).bind fun marriage_year =>
  (random_age (marriage_year - father_birth_year + 1) ufa).bind fun father_age =>
  (random_age (marriage_year - mother_birth_year + 1) uma).bind fun mother_age =>
  some ⟨father_birth_year, mother_birth_year, marriage_year,
        father_birth_year + father_age, mother_birth_year + mother_age⟩

/-- Per-iteration draws of the sibling loop in `FakeTree.add_family`: the
outcome of `random.randint(2, 6)` and the sibling's fresh handle. -/
structure SibDraw where
  uInc : ℕ
  handle : String
  deriving DecidableEq, Repr

/-- A child reference as recorded on the family (handle and birth year). -/
structure SibChild where
  handle : String
  birthYear : ℤ
  deriving DecidableEq, Repr

/-- State of the sibling loop: the running candidate `year`, the accumulated
`children` list, and the handles passed to `db.add_person` in each
per-iteration transaction. -/
structure SibState where
  year : ℤ
  children : List SibChild
  txns : List (List String)
  deriving DecidableEq, Repr

/-- Embedding of the sibling loop of `FakeTree.add_family` (one list entry
per iteration of `range(n_siblings)`): advance the year by `randint(2, 6)`;
`continue` when within 2 years of the anchor's birth year; `break` on any of
the three ceilings; otherwise append the sibling to the family's child list
and run one transaction adding every child accumulated so far. -/
def sibLoop (birth_year mother_birth_year mother_death_year
    father_death_year : ℤ) : SibState → List SibDraw → SibState
  | s, [] => s
  | s, d :: ds =>
    let year := s.year + randintT 2 6 d.uInc
    if |year - birth_year| < 2 then
      sibLoop birth_year mother_birth_year mother_death_year father_death_year
        { s with year := year } ds
    else if mother_birth_year + 40 < year then { s with year := year }
    else if mother_death_year - 2 < year then { s with year := year }
    else if father_death_year - 1 < year then { s with year := year }
    else
      sibLoop birth_year mother_birth_year mother_death_year father_death_year
        { year := year,
          children := s.children ++ [⟨d.handle, year⟩],
          txns := s.txns ++
            [(s.children ++ [(⟨d.handle, year⟩ : SibChild)]).map
              SibChild.handle] } ds

/-- The family's full child reference list: the anchor child is appended
before the sibling loop runs, the loop appends after it. -/
def familyChildren (birth_year : ℤ) (anchor_handle : String) (r : SibState) :
    List SibChild :=
  ⟨anchor_handle, birth_year⟩ :: r.children

/-- Invariant of the sibling loop relative to marriage year `M` and the
three ceilings. -/
def SibInv (mother_birth_year mother_death_year father_death_year M : ℤ)
    (s : SibState) : Prop :=
  M + 1 ≤ s.year ∧
  (∀ c ∈ s.children, M + 3 ≤ c.birthYear ∧ c.birthYear ≤ s.year ∧
      c.birthYear ≤ mother_birth_year + 40 ∧
      c.birthYear ≤ mother_death_year - 2 ∧
      c.birthYear ≤ father_death_year - 1) ∧
  List.Chain' (fun a b => a.birthYear + 2 ≤ b.birthYear) s.children

theorem randintT_bounds (lo hi : ℤ) (u : ℕ) (h : lo ≤ hi) :
    lo ≤ randintT lo hi u ∧ randintT lo hi u ≤ hi := by
  have hk : (0 : ℤ) < hi - lo + 1 := by omega
  have h0 : 0 ≤ (u : ℤ) % (hi - lo + 1) := Int.emod_nonneg _ (by omega)
  have h1 : (u : ℤ) % (hi - lo + 1) < hi - lo + 1 := Int.emod_lt_of_pos _ hk
  unfold randintT
  omega

theorem randint_eq_some (lo hi : ℤ) (u : ℕ) (h : lo ≤ hi) :
    randint lo hi u = some (randintT lo hi u) := by
  simp [randint, h]

theorem randint_mem_bounds {lo hi v : ℤ} {u : ℕ}
    (h : randint lo hi u = some v) : lo ≤ v ∧ v ≤ hi := by
  by_cases hle : lo ≤ hi
  · rw [randint_eq_some lo hi u hle] at h
    obtain rfl : randintT lo hi u = v := by injection h
    exact randintT_bounds lo hi u hle
  · simp [randint, hle] at h

theorem randint_surj {lo hi v : ℤ} (h1 : lo ≤ v) (h2 : v ≤ hi) :
    randint lo hi (Int.toNat (v - lo)) = some v := by
  have hle : lo ≤ hi := le_trans h1 h2
  rw [randint_eq_some lo hi _ hle]
  have hv : ((Int.toNat (v - lo) : ℕ) : ℤ) = v - lo :=
    Int.toNat_of_nonneg (by omega)
  have hmod : (v - lo) % (hi - lo + 1) = v - lo :=
    Int.emod_eq_of_lt (by omega) (by omega)
  unfold randintT
  rw [hv, hmod]
  congr 1
  omega

theorem mediaInv_add_image (folder : String) (color : Bool) (s : MediaState)
    (h : MediaInv s) : MediaInv (add_image folder color s) := by
  obtain ⟨hnd, hdisj⟩ := h
  unfold add_image
  cases hfind : s.images.find? (imageMatches folder color) with
  | none => exact ⟨hnd, hdisj⟩
  | some image =>
    have himg : image ∈ s.images := List.mem_of_find?_eq_some hfind
    have hnot : image ∉ s.mediaPaths := fun hmem => hdisj image hmem himg
    constructor
    · simpa [List.nodup_append] using ⟨hnd, hnot⟩
    · intro p hp hpf
      have hpne : p ≠ image := by
        rcases List.mem_filter.mp hpf with ⟨-, hb⟩
        simpa using hb
      rcases List.mem_append.mp hp with hpold | hpnew
      · exact hdisj p hpold (List.mem_of_mem_filter hpf)
      · exact hpne (by simpa using hpnew)

theorem mediaInv_runImages (reqs : List (String × Bool)) (s : MediaState)
    (h : MediaInv s) : MediaInv (runImages reqs s) := by
  induction reqs generalizing s with
  | nil => exact h
  | cons r rs ih => exact ih _ (mediaInv_add_image r.1 r.2 s h)

theorem chain'_snoc_of_forall {α : Type} {R : α → α → Prop} (l : List α)
    (x : α) (hl : List.Chain' R l) (hx : ∀ a ∈ l, R a x) :
    List.Chain' R (l ++ [x]) := by
  induction l with
  | nil => simp
  | cons a t ih =>
    cases t with
    | nil => simpa using hx a (by simp)
    | cons b t' =>
      simp only [List.cons_append] at hl ⊢
      rw [List.chain'_cons] at hl ⊢
      refine ⟨hl.1, ?_⟩
      have := ih hl.2 (fun c hc => hx c (List.mem_cons_of_mem a hc))
      simpa using this

theorem sibLoop_inv (birth_year mb md fd M : ℤ) (ds : List SibDraw) :
    ∀ s : SibState, SibInv mb md fd M s →
      SibInv mb md fd M (sibLoop birth_year mb md fd s ds) := by
  induction ds with
  | nil => exact fun s h => h
  | cons d ds ih =>
    intro s h
    obtain ⟨hy, hch, hchain⟩ := h
    have hinc := randintT_bounds 2 6 d.uInc (by omega)
    have hskip : ∀ y : ℤ, s.year ≤ y →
        SibInv mb md fd M ⟨y, s.children, s.txns⟩ := by
      intro y hyy
      refine ⟨show M + 1 ≤ y by omega, ?_, hchain⟩
      intro c hc
      have hc' := hch c hc
      exact ⟨hc'.1, show c.birthYear ≤ y by omega, hc'.2.2.1, hc'.2.2.2.1,
        hc'.2.2.2.2⟩
    simp only [sibLoop]
    split_ifs with h1 h2 h3 h4
    · exact ih _ (hskip _ (by omega))
    · exact hskip _ (by omega)
    · exact hskip _ (by omega)
    · exact hskip _ (by omega)
    · apply ih
      refine ⟨show M + 1 ≤ s.year + randintT 2 6 d.uInc by omega, ?_, ?_⟩
      · intro c hc
        rcases List.mem_append.mp hc with hold | hnew
        · have hc' := hch c hold
          exact ⟨hc'.1,
            show c.birthYear ≤ s.year + randintT 2 6 d.uInc by omega,
            hc'.2.2.1, hc'.2.2.2.1, hc'.2.2.2.2⟩
        · have hc' : c = ⟨d.handle, s.year + randintT 2 6 d.uInc⟩ := by
            simpa using hnew
          subst hc'
          refine ⟨show M + 3 ≤ s.year + randintT 2 6 d.uInc by omega,
            le_refl _,
            show s.year + randintT 2 6 d.uInc ≤ mb + 40 by omega,
            show s.year + randintT 2 6 d.uInc ≤ md - 2 by omega,
            show s.year + randintT 2 6 d.uInc ≤ fd - 1 by omega⟩
      · refine chain'_snoc_of_forall s.children
          ⟨d.handle, s.year + randintT 2 6 d.uInc⟩ hchain ?_
        intro a ha
        have ha' := hch a ha
        show a.birthYear + 2 ≤ s.year + randintT 2 6 d.uInc
        omega

theorem familyYears_bounds {birth_year : ℤ} {ufb umb um ufa uma : ℕ}
    {fy : FamilyYears}
    (h : familyYears birth_year ufb umb um ufa uma = some fy) :
    birth_year - 40 ≤ fy.fatherBirthYear ∧
    fy.fatherBirthYear ≤ birth_year - 20 ∧
    birth_year - 40 ≤ fy.motherBirthYear ∧
    fy.motherBirthYear ≤ birth_year - 20 ∧
    max fy.fatherBirthYear fy.motherBirthYear + 18 ≤ fy.marriageYear ∧
    fy.marriageYear ≤ birth_year - 1 ∧
    fy.marriageYear + 1 ≤ fy.fatherDeathYear ∧
    fy.fatherDeathYear ≤ fy.fatherBirthYear + MAX_AGE ∧
    fy.marriageYear + 1 ≤ fy.motherDeathYear ∧
    fy.motherDeathYear ≤ fy.motherBirthYear + MAX_AGE := by
  unfold familyYears at h
  obtain ⟨fb, hfb, h⟩ := Option.bind_eq_some.mp h
  obtain ⟨mb, hmb, h⟩ := Option.bind_eq_some.mp h
  obtain ⟨m, hm, h⟩ := Option.bind_eq_some.mp h
  obtain ⟨fa, hfa, h⟩ := Option.bind_eq_some.mp h
  obtain ⟨ma, hma, h⟩ := Option.bind_eq_some.mp h
  obtain rfl : fy = ⟨fb, mb, m, fb + fa, mb + ma⟩ := (Option.some.inj h).symm
  have hfb' := randint_mem_bounds hfb
  have hmb' := randint_mem_bounds hmb
  have hm' := randint_mem_bounds hm
  have hmax1 : fb ≤ max fb mb := le_max_left fb mb
  have hmax2 : mb ≤ max fb mb := le_max_right fb mb
  have hfa' : m - fb + 1 ≤ fa ∧ fa ≤ MAX_AGE := by
    rw [random_age, if_neg (by omega)] at hfa
    exact randint_mem_bounds hfa
  have hma' : m - mb + 1 ≤ ma ∧ ma ≤ MAX_AGE := by
    rw [random_age, if_neg (by omega)] at hma
    exact randint_mem_bounds hma
  refine ⟨hfb'.1, hfb'.2, hmb'.1, hmb'.2, hm'.1, hm'.2, ?_, ?_, ?_, ?_⟩ <;>
    simp only [FamilyYears.fatherDeathYear, FamilyYears.motherDeathYear,
      FamilyYears.fatherBirthYear, FamilyYears.motherBirthYear,
      FamilyYears.marriageYear] <;> omega

/-- Claim C3: in every `add_family` call, with both parents' birth years
drawn from `[Y - 40, Y - 20]`, the marriage-year range
`[max(fatherBirthYear, motherBirthYear) + 18, Y - 1]` is non-empty, so the
`randint` draw cannot fail, and every drawn marriage year is at least
`max(fatherBirthYear, motherBirthYear) + 18` and strictly below `Y`. -/
theorem marriage_range_nonempty_and_bounds (birth_year fb mb : ℤ)
    (ufb umb um : ℕ)
    (hfb : randint (birth_year - 40) (birth_year - 20) ufb = some fb)
    (hmb : randint (birth_year - 40) (birth_year - 20) umb = some mb) :
    max fb mb + 18 ≤ birth_year - 1 ∧
    ∃ m, randint (max fb mb + 18) (birth_year - 1) um = some m ∧
      max fb mb + 18 ≤ m ∧ m < birth_year := by
  have h1 := randint_mem_bounds hfb
  have h2 := randint_mem_bounds hmb
  have hle : max fb mb + 18 ≤ birth_year - 1 := by
    rcases max_cases fb mb with ⟨hm, -⟩ | ⟨hm, -⟩ <;> omega
  have hb := randintT_bounds (max fb mb + 18) (birth_year - 1) um hle
  exact ⟨hle, randintT (max fb mb + 18) (birth_year - 1) um,
    randint_eq_some _ _ _ hle, hb.1, by omega⟩

theorem marriage_range_nonempty_and_bounds_witness :
    max (1960 : ℤ) 1960 + 18 ≤ 2000 - 1 ∧
    ∃ m, randint (max (1960 : ℤ) 1960 + 18) (2000 - 1) 0 = some m ∧
      max (1960 : ℤ) 1960 + 18 ≤ m ∧ m < 2000 :=
  marriage_range_nonempty_and_bounds 2000 1960 1960 0 0 0 (by decide)
    (by decide)

/-- Claim C4: across any run, every media pool item is claimed by at most
one record: starting from an empty store with any image pool, after any
sequence of `add_image` requests the list of stored `Media` paths has no
duplicates. -/
theorem media_pool_items_claimed_at_most_once (reqs : List (String × Bool))
    (imgs : List String) :
    (runImages reqs ⟨imgs, []⟩).mediaPaths.Nodup :=
  (mediaInv_runImages reqs ⟨imgs, []⟩ ⟨List.nodup_nil, by simp⟩).1

/-- Claim C7: with an empty media pool, every `add_image` call returns
without attaching anything (the no-match early return), and a whole run of
requests leaves the store with zero media records. -/
theorem empty_pool_no_media_refs :
    (∀ (folder : String) (color : Bool) (ps : List String),
      add_image folder color ⟨[], ps⟩ = ⟨[], ps⟩) ∧
    (∀ reqs : List (String × Bool), runImages reqs ⟨[], []⟩ = ⟨[], []⟩) := by
  constructor
  · intro folder color ps
    rfl
  · intro reqs
    induction reqs with
    | nil => rfl
    | cons r rs ih => exact ih

/-- Claim C9: `random_age` treats `min_age = 0` as absent (`min_age or
MIN_AGE`), drawing uniformly from `[MIN_AGE, MAX_AGE] = [55, 90]`; for
`min_age > 0` it draws uniformly from `[min_age, MAX_AGE]`; consequently a
sibling's death age (drawn with `random_age()` and hence `min_age = 0`) is
always at least `MIN_AGE = 55`. -/
theorem random_age_zero_uses_default :
    (∀ u : ℕ, random_age 0 u = randint MIN_AGE MAX_AGE u) ∧
    (∀ (u : ℕ) (a : ℤ), random_age 0 u = some a →
      MIN_AGE ≤ a ∧ a ≤ MAX_AGE) ∧
    (∀ v : ℤ, MIN_AGE ≤ v → v ≤ MAX_AGE → ∃ u, random_age 0 u = some v) ∧
    (∀ min_age : ℤ, min_age ≠ 0 →
      ∀ u : ℕ, random_age min_age u = randint min_age MAX_AGE u) ∧
    (∀ min_age : ℤ, 0 < min_age → ∀ (u : ℕ) (a : ℤ),
      random_age min_age u = some a → min_age ≤ a ∧ a ≤ MAX_AGE) ∧
    (∀ min_age v : ℤ, 0 < min_age → min_age ≤ v → v ≤ MAX_AGE →
      ∃ u, random_age min_age u = some v) := by
  have h0 : ∀ u : ℕ, random_age 0 u = randint MIN_AGE MAX_AGE u := by
    intro u
    simp [random_age]
  have hp : ∀ min_age : ℤ, min_age ≠ 0 →
      ∀ u : ℕ, random_age min_age u = randint min_age MAX_AGE u := by
    intro min_age hne u
    simp [random_age, hne]
  refine ⟨h0, ?_, ?_, hp, ?_, ?_⟩
  · intro u a ha
    rw [h0] at ha
    exact randint_mem_bounds ha
  · intro v hv1 hv2
    exact ⟨Int.toNat (v - MIN_AGE), by rw [h0]; exact randint_surj hv1 hv2⟩
  · intro min_age hpos u a ha
    rw [hp min_age (by omega)] at ha
    exact randint_mem_bounds ha
  · intro min_age v hpos hv1 hv2
    exact ⟨Int.toNat (v - min_age),
      by rw [hp min_age (by omega)]; exact randint_surj hv1 hv2⟩

theorem random_age_zero_uses_default_witness :
    (MIN_AGE ≤ (60 : ℤ) ∧ (60 : ℤ) ≤ MAX_AGE) ∧
    ((19 : ℤ) ≤ 19 ∧ (19 : ℤ) ≤ MAX_AGE) :=
  ⟨random_age_zero_uses_default.2.1 5 60 (by decide),
   random_age_zero_uses_default.2.2.2.2.1 19 (by decide) 0 19 (by decide)⟩

/-- Claim C10: in every generated family, the anchor child is the first
entry of the child reference list and the appended siblings follow in
strictly increasing birth-year order: each `randint(2, 6)` increment is at
least 2, the first sibling is born no earlier than `marriageYear + 3`, and
consecutive siblings are at least 2 years apart. -/
theorem anchor_first_and_sibling_years_increase
    (birth_year mb md fd M : ℤ) (anchor : String) (ds : List SibDraw) :
    familyChildren birth_year anchor
        (sibLoop birth_year mb md fd ⟨M + 1, [], []⟩ ds) =
      (⟨anchor, birth_year⟩ : SibChild) ::
        (sibLoop birth_year mb md fd ⟨M + 1, [], []⟩ ds).children ∧
    (∀ u : ℕ, 2 ≤ randintT 2 6 u ∧ randintT 2 6 u ≤ 6) ∧
    (∀ c ∈ (sibLoop birth_year mb md fd ⟨M + 1, [], []⟩ ds).children,
      M + 3 ≤ c.birthYear) ∧
    List.Chain' (fun a b => a.birthYear + 2 ≤ b.birthYear)
      (sibLoop birth_year mb md fd ⟨M + 1, [], []⟩ ds).children ∧
    List.Chain' (fun a b => a.birthYear < b.birthYear)
      (sibLoop birth_year mb md fd ⟨M + 1, [], []⟩ ds).children := by
  have hinv := sibLoop_inv birth_year mb md fd M ds ⟨M + 1, [], []⟩
    ⟨le_refl _, by simp, List.chain'_nil⟩
  refine ⟨rfl, fun u => randintT_bounds 2 6 u (by omega),
    fun c hc => (hinv.2.1 c hc).1, hinv.2.2, ?_⟩
  exact List.Chain'.imp (fun a b hab => by omega) hinv.2.2

/-- Claim C2 counterexample: with anchor birth year 2000, both parents born
1960, marriage year 1999 and both parents' death ages drawn at their floor
(40, dying in 2000), every draw is legal, yet the anchor child — the first
entry of the family's child reference list — has birth year 2000, which
exceeds both `motherDeathYear - 2 = 1998` and `fatherDeathYear - 1 = 1999`:
the claimed ceiling fails for the anchor child. -/
theorem anchor_child_breaks_death_ceilings :
    familyYears 2000 0 0 21 0 0 = some ⟨1960, 1960, 1999, 2000, 2000⟩ ∧
    ¬ (∀ c ∈ familyChildren 2000 "anchor"
          (sibLoop 2000 1960 2000 2000 ⟨1999 + 1, [], []⟩ []),
        (1999 : ℤ) + 1 ≤ c.birthYear ∧ c.birthYear ≤ 1960 + 40 ∧
        c.birthYear ≤ 2000 - 2 ∧ c.birthYear ≤ 2000 - 1) := by
  refine ⟨by decide, ?_⟩
  intro h
  have hc := h ⟨"anchor", 2000⟩ (List.mem_singleton_self _)
  exact absurd hc.2.2.1 (by decide)

/-- Claim C2 (amended): every sibling appended by the sibling loop has a
birth year of at least `marriageYear + 1` and at most each of the three
ceilings (mother's birth year + 40, mother's death year - 2, father's death
year - 1); the anchor child always satisfies the floor and the fertility
ceiling, but — as the counterexample shows — not necessarily the two
death-year ceilings. -/
theorem children_bounds_amended (birth_year : ℤ) (ufb umb um ufa uma : ℕ)
    (fy : FamilyYears) (ds : List SibDraw)
    (hfy : familyYears birth_year ufb umb um ufa uma = some fy) :
    (∀ c ∈ (sibLoop birth_year fy.motherBirthYear fy.motherDeathYear
        fy.fatherDeathYear ⟨fy.marriageYear + 1, [], []⟩ ds).children,
      fy.marriageYear + 1 ≤ c.birthYear ∧
      c.birthYear ≤ fy.motherBirthYear + 40 ∧
      c.birthYear ≤ fy.motherDeathYear - 2 ∧
      c.birthYear ≤ fy.fatherDeathYear - 1) ∧
    fy.marriageYear + 1 ≤ birth_year ∧
    birth_year ≤ fy.motherBirthYear + 40 := by
  obtain ⟨h1, h2, h3, h4, h5, h6, h7, h8, h9, h10⟩ := familyYears_bounds hfy
  have hinv := sibLoop_inv birth_year fy.motherBirthYear fy.motherDeathYear
    fy.fatherDeathYear fy.marriageYear ds ⟨fy.marriageYear + 1, [], []⟩
    ⟨le_refl _, by simp, List.chain'_nil⟩
  refine ⟨?_, by omega, by omega⟩
  intro c hc
  have h := hinv.2.1 c hc
  exact ⟨by omega, h.2.2.1, h.2.2.2.1, h.2.2.2.2⟩

theorem children_bounds_amended_witness :
    (∀ c ∈ (sibLoop 2000 1960 1979 1979 ⟨1978 + 1, [], []⟩ []).children,
      (1978 : ℤ) + 1 ≤ c.birthYear ∧ c.birthYear ≤ 1960 + 40 ∧
      c.birthYear ≤ 1979 - 2 ∧ c.birthYear ≤ 1979 - 1) ∧
    (1978 : ℤ) + 1 ≤ 2000 ∧ (2000 : ℤ) ≤ 1960 + 40 :=
  children_bounds_amended 2000 0 0 0 0 0 ⟨1960, 1960, 1978, 1979, 1979⟩
    [] (by decide)

/-- Claim C5 counterexample: with anchor birth year 1999, the father born
1960 and marriage year 1978 (all legal draws), the father's death age can
be drawn as 19 — `random_age(min_age=19)` draws from `[19, 90]`, not from
`[max(55, 19), 90]`: the `min_age` floor replaces `MIN_AGE` instead of
raising it. -/
theorem parent_death_age_below_55 :
    randint (1999 - 40) (1999 - 20) 1 = some 1960 ∧
    randint (max 1960 1960 + 18) (1999 - 1) 0 = some 1978 ∧
    random_age (1978 - 1960 + 1) 0 = some 19 ∧
    ¬ (max MIN_AGE (1978 - 1960 + 1) ≤ 19) := by decide

/-- Claim C5 (amended): each parent's death age is drawn uniformly from
`[marriageYear - parentBirthYear + 1, MAX_AGE]` — the floor replaces the
`MIN_AGE = 55` default rather than raising it — and under the `add_family`
constraints this floor always lies in `[19, 40]`, so the draw succeeds and
every outcome lies in that band. -/
theorem parent_death_age_band (birth_year fb mb m : ℤ) (ufb umb um : ℕ)
    (hfb : randint (birth_year - 40) (birth_year - 20) ufb = some fb)
    (hmb : randint (birth_year - 40) (birth_year - 20) umb = some mb)
    (hm : randint (max fb mb + 18) (birth_year - 1) um = some m) :
    (19 ≤ m - fb + 1 ∧ m - fb + 1 ≤ 40 ∧
     19 ≤ m - mb + 1 ∧ m - mb + 1 ≤ 40) ∧
    (∀ ua : ℕ, ∃ a, random_age (m - fb + 1) ua = some a ∧
      m - fb + 1 ≤ a ∧ a ≤ MAX_AGE) ∧
    (∀ ua : ℕ, ∃ a, random_age (m - mb + 1) ua = some a ∧
      m - mb + 1 ≤ a ∧ a ≤ MAX_AGE) := by
  have h1 := randint_mem_bounds hfb
  have h2 := randint_mem_bounds hmb
  have h3 := randint_mem_bounds hm
  have hmax1 : fb ≤ max fb mb := le_max_left fb mb
  have hmax2 : mb ≤ max fb mb := le_max_right fb mb
  have hmaxle : max fb mb ≤ birth_year - 20 := by
    rcases max_cases fb mb with ⟨hx, -⟩ | ⟨hx, -⟩ <;> omega
  have hM : MAX_AGE = 90 := rfl
  refine ⟨⟨by omega, by omega, by omega, by omega⟩, ?_, ?_⟩
  · intro ua
    have hle : m - fb + 1 ≤ MAX_AGE := by omega
    have hb := randintT_bounds (m - fb + 1) MAX_AGE ua hle
    refine ⟨randintT (m - fb + 1) MAX_AGE ua, ?_, hb.1, hb.2⟩
    rw [random_age, if_neg (by omega)]
    exact randint_eq_some _ _ _ hle
  · intro ua
    have hle : m - mb + 1 ≤ MAX_AGE := by omega
    have hb := randintT_bounds (m - mb + 1) MAX_AGE ua hle
    refine ⟨randintT (m - mb + 1) MAX_AGE ua, ?_, hb.1, hb.2⟩
    rw [random_age, if_neg (by omega)]
    exact randint_eq_some _ _ _ hle

theorem parent_death_age_band_witness :
    ((19 : ℤ) ≤ 1978 - 1960 + 1 ∧ (1978 : ℤ) - 1960 + 1 ≤ 40 ∧
     (19 : ℤ) ≤ 1978 - 1960 + 1 ∧ (1978 : ℤ) - 1960 + 1 ≤ 40) ∧
    (∀ ua : ℕ, ∃ a, random_age (1978 - 1960 + 1) ua = some a ∧
      (1978 : ℤ) - 1960 + 1 ≤ a ∧ a ≤ MAX_AGE) ∧
    (∀ ua : ℕ, ∃ a, random_age (1978 - 1960 + 1) ua = some a ∧
      (1978 : ℤ) - 1960 + 1 ≤ a ∧ a ≤ MAX_AGE) :=
  parent_death_age_band 2000 1960 1960 1978 0 0 0 (by decide) (by decide)
    (by decide)

/-- Claim C6 (code bug demonstration): in a sibling-loop run that appends
two siblings, the first iteration's transaction adds handle `h1`, and the
second iteration's transaction — which loops over all accumulated children
— adds `h1` again together with `h2`: flattening the per-transaction add
lists yields a duplicate, so a record-store add is performed with a handle
already present in the store. -/
theorem sibling_transaction_readds_handle :
    (sibLoop 2000 1965 2055 2056 ⟨1990 + 1, [], []⟩
        [⟨0, "h1"⟩, ⟨0, "h2"⟩]).txns = [["h1"], ["h1", "h2"]] ∧
    ¬ (List.flatten (sibLoop 2000 1965 2055 2056 ⟨1990 + 1, [], []⟩
        [⟨0, "h1"⟩, ⟨0, "h2"⟩]).txns).Nodup := by decide

/-- Claim C8 counterexample: the image pool is a hash set whose iteration
order is not a function of the random seed; two runs that agree on the seed
(identical request sequences) but differ in pool iteration order — the same
pool as a set, related by `List.Perm` — produce different media claim
assignments and here even different numbers of Media records, hence
non-isomorphic record graphs. -/
theorem same_seed_runs_can_differ :
    List.Perm ["peoplewedding_color.jpg", "people_color.jpg"]
      ["people_color.jpg", "peoplewedding_color.jpg"] ∧
    (runImages [("people", true), ("wedding", true)]
        ⟨["peoplewedding_color.jpg", "people_color.jpg"], []⟩
      ).mediaPaths.length ≠
    (runImages [("people", true), ("wedding", true)]
        ⟨["people_color.jpg", "peoplewedding_color.jpg"], []⟩
      ).mediaPaths.length :=
  ⟨List.Perm.swap _ _ _, by decide⟩

/-- Claim C8 (amended): the generator is deterministic as a function of the
random stream together with the media-pool iteration order: runs agreeing
on both produce identical stores; and for a single request from the initial
pool, whether an image is attached depends only on the pool as a set.  The
seed alone does not fix the iteration order (nor the `uuid4` handles), and
by the counterexample runs agreeing only on the seed need not produce
isomorphic graphs. -/
theorem same_inputs_same_run :
    (∀ (reqs : List (String × Bool)) (imgs1 imgs2 : List String),
      imgs1 = imgs2 →
      runImages reqs ⟨imgs1, []⟩ = runImages reqs ⟨imgs2, []⟩) ∧
    (∀ (folder : String) (color : Bool) (p1 p2 : List String),
      List.Perm p1 p2 →
      ((add_image folder color ⟨p1, []⟩).mediaPaths = [] ↔
       (add_image folder color ⟨p2, []⟩).mediaPaths = [])) := by
  constructor
  · intro reqs imgs1 imgs2 h
    rw [h]
  · intro folder color p1 p2 hperm
    have key : ∀ q : List String,
        (add_image folder color ⟨q, []⟩).mediaPaths = [] ↔
          q.find? (imageMatches folder color) = none := by
      intro q
      unfold add_image
      cases hf : q.find? (imageMatches folder color) with
      | none => simp
      | some img => simp
    rw [key p1, key p2, List.find?_eq_none, List.find?_eq_none]
    constructor
    · intro h x hx
      exact h x (hperm.symm.subset hx)
    · intro h x hx
      exact h x (hperm.subset hx)

theorem same_inputs_same_run_witness :
    runImages [("people", true)] ⟨["a_color.jpg"], []⟩ =
      runImages [("people", true)] ⟨["a_color.jpg"], []⟩ ∧
    ((add_image "people" true ⟨["x"], []⟩).mediaPaths = [] ↔
     (add_image "people" true ⟨["x"], []⟩).mediaPaths = []) :=
  ⟨same_inputs_same_run.1 [("people", true)] ["a_color.jpg"] ["a_color.jpg"]
      rfl,
   same_inputs_same_run.2 "people" true ["x"] ["x"] (List.Perm.refl _)⟩

theorem has_parents_prob_self {N : ℕ} (hN : 0 < N) :
    has_parents_prob N N = 0 := by
  unfold has_parents_prob
  rw [div_self (by exact_mod_cast hN.ne' : (N : ℚ) ≠ 0)]
  ring

theorem no_expand_beyond {N n : ℕ} (hN : 0 < N) (hn : N < n) (u : ℚ)
    (h0 : 0 ≤ u) : random_has_parents N u n = false := by
  unfold random_has_parents random_bool has_parents_prob
  simp only [decide_eq_false_iff_not, not_le]
  have h1 : (0 : ℚ) < N := by exact_mod_cast hN
  have h2 : (N : ℚ) < n := by exact_mod_cast hn
  have h3 : (1 : ℚ) < (n : ℚ) / N := (one_lt_div h1).mpr h2
  linarith

/-- Claim C1 counterexample: `random.random()` can return exactly 0, and
`random_bool(0)` then succeeds (`0 <= 0`), so at depth `N_GEN` — where the
expansion probability is 0 — expansion is still possible on that outcome,
making a call `add_family(_, _, N_GEN + 1)` reachable: the claim's clause
that no call with `n_gen > N_GEN` is reachable for any outcome of the
random source is false. -/
theorem expansion_at_max_depth_possible :
    random_has_parents N_GEN 0 N_GEN = true ∧
    depthReachable N_GEN (N_GEN + 1) := by
  have step : ∀ n : ℕ, n ≤ 6 →
      ∃ u : ℚ, 0 ≤ u ∧ u < 1 ∧ random_has_parents 6 u n = true := by
    intro n hn
    refine ⟨0, le_refl 0, by norm_num, ?_⟩
    unfold random_has_parents random_bool has_parents_prob
    simp only [decide_eq_true_eq]
    have h6 : (n : ℚ) ≤ 6 := by exact_mod_cast hn
    have hd : (n : ℚ) / 6 ≤ 1 := by
      rw [div_le_one (by norm_num : (0 : ℚ) < 6)]
      exact h6
    linarith
  constructor
  · unfold random_has_parents random_bool
    rw [has_parents_prob_self (by decide : 0 < N_GEN)]
    simp only [decide_eq_true_eq]
    exact le_refl 0
  · show depthReachable 6 7
    have d1 : depthReachable 6 1 := ⟨trivial, step 0 (by norm_num)⟩
    have d2 : depthReachable 6 2 := ⟨d1, step 1 (by norm_num)⟩
    have d3 : depthReachable 6 3 := ⟨d2, step 2 (by norm_num)⟩
    have d4 : depthReachable 6 4 := ⟨d3, step 3 (by norm_num)⟩
    have d5 : depthReachable 6 5 := ⟨d4, step 4 (by norm_num)⟩
    have d6 : depthReachable 6 6 := ⟨d5, step 5 (by norm_num)⟩
    exact ⟨d6, step 6 (le_refl 6)⟩

/-- Claim C1 (amended): the probability that `random_has_parents(n)`
succeeds — the Lebesgue measure of the outcomes `u ∈ [0, 1)` of
`random.random()` with `u ≤ 1 - n/N` — equals `1 - n/N` for every depth
`n ≤ N`; it is strictly decreasing in the depth and reaches 0 at `n = N`.
However expansion at depth `N` still happens on the single (probability
zero) outcome `u = 0`, so a call with `n_gen = N + 1` is reachable; for
every `n > N` the computed probability is negative and no outcome expands,
so no call with `n_gen > N + 1` is ever reachable. -/
theorem generation_decay_amended (N : ℕ) (hN : 0 < N) :
    (∀ n : ℕ, n ≤ N →
      MeasureTheory.volume
          {u : ℝ | 0 ≤ u ∧ u < 1 ∧ u ≤ ((has_parents_prob N n : ℚ) : ℝ)} =
        ENNReal.ofReal ((has_parents_prob N n : ℚ) : ℝ)) ∧
    (∀ n m : ℕ, n < m → m ≤ N →
      has_parents_prob N m < has_parents_prob N n) ∧
    has_parents_prob N N = 0 ∧
    (∀ u : ℚ, 0 ≤ u → (random_has_parents N u N = true ↔ u = 0)) ∧
    (∀ u : ℚ, 0 ≤ u → ∀ n : ℕ, N < n → random_has_parents N u n = false) ∧
    ¬ depthReachable N (N + 2) := by
  have hQN : (0 : ℚ) < N := by exact_mod_cast hN
  have hRN : (0 : ℝ) < N := by exact_mod_cast hN
  refine ⟨?_, ?_, has_parents_prob_self hN, ?_, ?_, ?_⟩
  · intro n hn
    have hp_eq : ((has_parents_prob N n : ℚ) : ℝ) = 1 - (n : ℝ) / N := by
      unfold has_parents_prob
      push_cast
      ring
    rw [hp_eq]
    rcases Nat.eq_zero_or_pos n with hn0 | hnpos
    · subst hn0
      have hset : {u : ℝ | 0 ≤ u ∧ u < 1 ∧ u ≤ 1 - (0 : ℕ) / (N : ℝ)} =
          Set.Ico (0 : ℝ) 1 := by
        ext u
        simp only [Set.mem_setOf_eq, Set.mem_Ico, Nat.cast_zero, zero_div,
          sub_zero]
        exact ⟨fun h => ⟨h.1, h.2.1⟩, fun h => ⟨h.1, h.2, le_of_lt h.2⟩⟩
      rw [hset, Real.volume_Ico]
      norm_num
    · have hfrac : (0 : ℝ) < (n : ℝ) / N :=
        div_pos (by exact_mod_cast hnpos) hRN
      have hfrac1 : (n : ℝ) / N ≤ 1 := by
        rw [div_le_one hRN]
        exact_mod_cast hn
      have hset : {u : ℝ | 0 ≤ u ∧ u < 1 ∧ u ≤ 1 - (n : ℝ) / N} =
          Set.Icc (0 : ℝ) (1 - (n : ℝ) / N) := by
        ext u
        simp only [Set.mem_setOf_eq, Set.mem_Icc]
        exact ⟨fun h => ⟨h.1, h.2.2⟩,
          fun h => ⟨h.1, lt_of_le_of_lt h.2 (by linarith), h.2⟩⟩
      rw [hset, Real.volume_Icc, sub_zero]
  · intro n m hnm hm
    unfold has_parents_prob
    have h2 : (n : ℚ) < m := by exact_mod_cast hnm
    have h3 : (n : ℚ) / N < (m : ℚ) / N := by
      rw [div_eq_mul_inv, div_eq_mul_inv]
      exact mul_lt_mul_of_pos_right h2 (inv_pos.mpr hQN)
    linarith
  · intro u hu
    unfold random_has_parents random_bool
    rw [has_parents_prob_self hN]
    simp only [decide_eq_true_eq]
    exact ⟨fun h => le_antisymm h hu, fun h => le_of_eq h⟩
  · intro u hu n hn
    exact no_expand_beyond hN hn u hu
  · intro hreach
    obtain ⟨-, u, hu0, hu1, hexp⟩ := hreach
    rw [no_expand_beyond hN (by omega) u hu0] at hexp
    exact Bool.false_ne_true hexp

theorem generation_decay_amended_witness :
    has_parents_prob 6 6 = 0 ∧ random_has_parents 6 (1 / 2) 7 = false :=
  ⟨(generation_decay_amended 6 (by norm_num)).2.2.1,
   (generation_decay_amended 6 (by norm_num)).2.2.2.2.1 (1 / 2) (by norm_num)
     7 (by norm_num)⟩

end FakeTree
